import Mathlib

/-!
Shallow embedding of the encode2mp3 WAV-to-MP3 batch converter
(src/encode2mp3.cpp together with src/filesystem.cpp / src/filesystem.hpp /
src/encode2mp3.hpp).  File names and file contents are modelled as lists of
bytes (`List Nat`); the external LAME encoder is abstracted by a function
from the number of sample frames fed to it to the compressed bytes it
returns, since the encoding algorithm itself is an external collaborator.
-/

namespace Encode2Mp3

/-- ASCII bytes of a string literal; a convenience for building concrete
inputs (C strings carry no interior NUL, so a plain byte list suffices). -/
def strBytes (s : String) : List Nat := s.toList.map Char.toNat

/-- The C-locale `::tolower`: folds the ASCII uppercase range 65-90
(`A`-`Z`) down by 32, leaves every other byte unchanged. -/
def toLowerB (c : Nat) : Nat := if 65 ≤ c ∧ c ≤ 90 then c + 32 else c

/-- Mirrors `enum class PathType : uint8_t { File, Dir }` (src/encode2mp3.hpp). -/
inductive PathType where
  | File : PathType
  | Dir  : PathType
deriving DecidableEq, Repr

/-- Mirrors `struct PathName { PathType type; std::string name; }`
(src/encode2mp3.hpp). -/
structure PathName where
  type : PathType
  name : List Nat
deriving DecidableEq, Repr

/-- The inner extension test of `filterFiles` (src/filesystem.cpp lines
150-174): `name` matches `extention` when the name is long enough to hold
a dot plus the extension, the byte `extention.size()` positions from the
end is `'.'` (byte 46), and the final `extention.size()` bytes of the
name, lowercased, equal the extension.  (The `std::out_of_range` throw for
extensions longer than `INT32_MAX` is not modelled; every extension the
program configures is three or four bytes.) -/
def matchesExt (name extention : List Nat) : Bool :=
  if name.length < extention.length + 1 then false
  else if name.reverse.getD extention.length 0 ≠ 46 then false
  else decide (((name.reverse.take extention.length).map toLowerB).reverse = extention)

/-- Embeds `filterFiles` (src/filesystem.cpp lines 142-181): keep entries of kind
`File` whose name matches some configured extension; the inner `for` loop
pushes the entry once and breaks at the first matching extension, which is
exactly an existential over the extension list. -/
def filterFiles : List PathName → List (List Nat) → List PathName
  | [], _ => []
  | p :: ps, exts =>
    if p.type ≠ PathType.File then filterFiles ps exts
    else if exts.any (fun e => matchesExt p.name e) then p :: filterFiles ps exts
    else filterFiles ps exts

/-- Mirrors `static vector<string> extentions = { "wav", "wave", "pcm" }`
(src/encode2mp3.cpp line 75). -/
def extentions : List (List Nat) := [strBytes "wav", strBytes "wave", strBytes "pcm"]

/-- Spec-side notion for the extension filter: the suffix of the name
after the final `'.'` (byte 46), or `none` when the name has no dot. -/
def suffixAfterLastDot (name : List Nat) : Option (List Nat) :=
  if 46 ∈ name then some ((name.reverse.takeWhile (fun c => c ≠ 46)).reverse)
  else none

/-- Spec-side matching: the suffix after the final dot equals the
extension under ASCII-case-insensitive comparison. -/
def specMatches (name extention : List Nat) : Bool :=
  match suffixAfterLastDot name with
  | none => false
  | some s => decide (s.map toLowerB = extention.map toLowerB)

/-- Mirrors `struct PcmHeader` (src/encode2mp3.hpp): the fixed 44-byte packed WAV
header.  Text fields are 4-byte tags; `sampleRate` is `int32_t` (signed),
the other numeric fields are unsigned. -/
structure PcmHeader where
  chunkID       : List Nat
  chunkSize     : Nat
  format        : List Nat
  subchunk1ID   : List Nat
  subchunk1Size : Nat
  audioFormat   : Nat
  numChannels   : Nat
  sampleRate    : Int
  byteRate      : Nat
  blockAlign    : Nat
  bitsPerSample : Nat
  subchunk2ID   : List Nat
  subchunk2Size : Nat
deriving DecidableEq, Repr

/-- Embeds `isValid` (src/encode2mp3.cpp lines 210-217): the header check the
worker applies before encoding. -/
def isValid (h : PcmHeader) : Bool :=
  decide (h.audioFormat = 1)
    && decide (8 ≤ h.bitsPerSample)
    && decide (0 < h.numChannels)
    && decide (0 < h.sampleRate)
    && decide (0 < h.bitsPerSample)

/-- The sample budget the spec derives from the header:
`declaredSampleCount = dataChunkSize / blockAlign`. -/
def declaredSampleCount (h : PcmHeader) : Nat := h.subchunk2Size / h.blockAlign

/-- The `while (fileName.back() != '.') fileName.pop_back()` loop of
`changeExtention`, phrased on the reversed byte list: drop bytes from the
back until the final dot (byte 46) is exposed, keeping the dot.  (On a
name with no dot the C++ loop pops the string empty and `back()` is
undefined; the model returns the empty list there.) -/
def popTillDot : List Nat → List Nat
  | [] => []
  | c :: rest => if c = 46 then c :: rest else popTillDot rest

/-- Embeds `changeExtention` (src/encode2mp3.cpp lines 238-245): strip everything
after the final dot and append `"mp3"`. -/
def changeExtention (fileName : List Nat) : List Nat :=
  (popTillDot fileName.reverse).reverse ++ strBytes "mp3"

/-- The scanning loop of `checkPath` (src/filesystem.cpp lines 195-202):
walk the bytes of the C string, return true at the first `'/'` (47) or
`'\'` (92). -/
def checkPathGo : List Nat → Bool
  | [] => false
  | c :: rest => if c = 47 ∨ c = 92 then true else checkPathGo rest

/-- Embeds `checkPath` (src/filesystem.cpp lines 189-202): a null pointer is
modelled as `none`, a C string as `some bytes`. -/
def checkPath : Option (List Nat) → Bool
  | none => false
  | some s => checkPathGo s

/-- The console lines `encode2mp3Worker` can emit (src/encode2mp3.cpp
lines 259-336), tagged with the file name they print. -/
inductive DiagLine where
  | unsupportedFormat (file : List Nat) : DiagLine
  | brokenHeader (file : List Nat) : DiagLine
  | encodingStart (inFile outFile : List Nat) : DiagLine
  | lowQuality : DiagLine
  | toWriteZero (file : List Nat) : DiagLine
  | finished (outFile : List Nat) : DiagLine
deriving DecidableEq, Repr

/-- One `outMp3.write(mp3Buffer, toWrite)` call: the target path together
with the bytes appended to it. -/
structure WriteEvent where
  path  : List Nat
  bytes : List Nat
deriving DecidableEq, Repr

/-- Everything observable about one worker run: cumulative sample frames
fed to the encoder, console lines, and output-file writes. -/
structure LoopOut where
  samples : Nat
  events  : List DiagLine
  writes  : List WriteEvent
deriving DecidableEq, Repr

/-- Mirrors `PCM_NUM_ELEMS` (src/encode2mp3.cpp line 296). -/
def PCM_NUM_ELEMS : Nat := 8192

/-- Mirrors `MP3_BUF_SIZE` (src/encode2mp3.cpp line 297). -/
def MP3_BUF_SIZE : Nat := 8192

/-- Evaluates `sizeof(pcmBuffer)` for `int16_t pcmBuffer[2 * PCM_NUM_ELEMS]`:
2 bytes per element, 2 channels, `PCM_NUM_ELEMS` frames. -/
def pcmBufferBytes : Nat := 2 * (2 * PCM_NUM_ELEMS)

/-- Mirrors `toRead = sizeof(pcmBuffer) / (isMono ? 2u : 1u)` (src/encode2mp3.cpp
line 302): bytes requested from the input stream per iteration. -/
def toReadFor (isMono : Bool) : Nat := pcmBufferBytes / (if isMono then 2 else 1)

/-- The `do { ... } while (!inPcm.eof())` streaming loop of
`encode2mp3Worker` (src/encode2mp3.cpp lines 305-325).  `remaining` is
the number of bytes left in the input stream past the 44-byte header;
`ifstream::read` delivers `min toRead remaining` bytes and raises `eof`
exactly when it delivered fewer than requested.  `samplesRead` mirrors
`bytesRead / (bitsPerSample / 8) / numChannels`; `enc` abstracts
`lame_encode_buffer(_interleaved)`, mapping the sample count fed to the
bytes the encoder hands back, and each iteration appends those bytes to
the derived output file. -/
def encodeLoopRun (enc : Nat → List Nat) (toRead bps ch : Nat)
    (inFile : List Nat) (remaining : Nat) : LoopOut :=
  if hT : toRead = 0 then ⟨0, [], []⟩
  else
    let bytesRead := min toRead remaining
    let samplesRead := bytesRead / bps / ch
    let mp3 := enc samplesRead
    let evs := if mp3.length = 0 then [DiagLine.toWriteZero inFile] else []
    let wr : WriteEvent := ⟨changeExtention inFile, mp3⟩
    if hEof : bytesRead < toRead then
      ⟨samplesRead, evs, [wr]⟩
    else
      let rest := encodeLoopRun enc toRead bps ch inFile (remaining - toRead)
      ⟨samplesRead + rest.samples, evs ++ rest.events, wr :: rest.writes⟩
termination_by remaining
decreasing_by
  simp only [bytesRead] at hEof
  omega

/-- Embeds `encode2mp3Worker` (src/encode2mp3.cpp lines 249-338) for one file,
given the parsed header, the number of stream bytes after the header, the
abstract encoder `enc` and the bytes `lame_encode_flush` returns.  An
invalid header prints exactly one line and returns before the output file
is opened; otherwise the loop runs and the flush bytes are appended last.
(Encoder-initialisation failure, an external-engine condition, is not
modelled: `enc` stands for a successfully initialised session.) -/
def encode2mp3Worker (enc : Nat → List Nat) (flushBytes : List Nat)
    (h : PcmHeader) (inFile : List Nat) (streamBytes : Nat) : LoopOut :=
  if isValid h = false then
    if h.audioFormat ≠ 1 then ⟨0, [DiagLine.unsupportedFormat inFile], []⟩
    else ⟨0, [DiagLine.brokenHeader inFile], []⟩
  else
    let outFile := changeExtention inFile
    let isMono := h.numChannels = 1
    let toRead := toReadFor isMono
    let headerEvs := DiagLine.encodingStart inFile outFile ::
      (if h.bitsPerSample < 16 then [DiagLine.lowQuality] else [])
    let loop := encodeLoopRun enc toRead (h.bitsPerSample / 8) h.numChannels inFile streamBytes
    ⟨loop.samples,
     headerEvs ++ loop.events ++ [DiagLine.finished outFile],
     loop.writes ++ [⟨outFile, flushBytes⟩]⟩

/-- One `lame_encode_buffer` call in MONO mode: the left channel buffer,
the right channel buffer, and the sample count passed. -/
structure EncodeCall where
  leftChannel  : List Int
  rightChannel : List Int
  nsamples     : Nat
deriving DecidableEq, Repr

/-- 16-bit samples delivered per mono read:
`toRead = sizeof(pcmBuffer) / 2` bytes, two bytes per sample. -/
def monoChunkSamples : Nat := toReadFor true / 2

/-- Mirrors `int16_t dummyPcmRightChannel[sizeof(pcmBuffer)] = {}`
(src/encode2mp3.cpp line 315): a fresh zero-filled array of
`sizeof(pcmBuffer)` elements built inside the loop body, distinct from
`pcmBuffer` itself. -/
def dummyPcmRightChannel : List Int := List.replicate pcmBufferBytes 0

/-- The sequence of `lame_encode_buffer` calls the mono path makes for a
16-bit mono stream (given as its list of decoded 16-bit samples): each
iteration reads up to `monoChunkSamples` fresh samples into `pcmBuffer`
and passes them as the left channel alongside the zero-filled dummy right
channel; the trailing iteration that observes `eof` passes what was read
last (possibly nothing). -/
def monoLoopCalls (stream : List Int) : List EncodeCall :=
  let chunk := stream.take monoChunkSamples
  let call : EncodeCall := ⟨chunk, dummyPcmRightChannel, chunk.length⟩
  if h : stream.length < monoChunkSamples then [call]
  else call :: monoLoopCalls (stream.drop monoChunkSamples)
termination_by stream.length
decreasing_by
  simp only [List.length_drop]
  have : 0 < monoChunkSamples := by decide
  omega

/-- The file system as a map from output path to the bytes written so
far; `outMp3.write` appends to the stream the path names. -/
def applyWrite (fs : List Nat → List Nat) (w : WriteEvent) : List Nat → List Nat :=
  fun p => if p = w.path then fs p ++ w.bytes else fs p

/-- Apply a sequence of write events in order. -/
def applyWrites (fs : List Nat → List Nat) (ws : List WriteEvent) : List Nat → List Nat :=
  ws.foldl applyWrite fs

/-- The per-worker write queues of a batch: `encodeAll2Mp3`
(src/encode2mp3.cpp lines 341-356) spawns `encode2mp3Worker` once per
input file, each worker owning its header, its stream and its output.
An input is `(file name, parsed header, stream bytes past the header)`. -/
def workerQueues (enc : Nat → List Nat) (flushBytes : List Nat)
    (inputs : List (List Nat × PcmHeader × Nat)) : List (List WriteEvent) :=
  inputs.map (fun t => (encode2mp3Worker enc flushBytes t.2.1 t.1 t.2.2).writes)

/-- A concurrent execution of the worker pool: the scheduler repeatedly
picks a worker index and lets that worker perform its next pending write;
after the schedule runs out, the join barrier in `encodeAll2Mp3` lets
every remaining write complete (drained here in worker order).  Every
interleaving of the per-worker write sequences arises from some
schedule. -/
def runSchedule : List Nat → List (List WriteEvent) → List WriteEvent
  | [], queues => queues.flatten
  | i :: sched, queues =>
    match queues.getD i [] with
    | [] => runSchedule sched queues
    | w :: rest => w :: runSchedule sched (queues.set i (rest))

/-- The result of `main` (src/encode2mp3.cpp lines 359-384): process exit
code plus the lines printed, with worker diagnostics appended when the
batch runs. -/
structure MainOut where
  exitCode : Int
  output   : List (List Nat)
  workerDiags : List DiagLine
deriving Repr

/-- The usage text `main` prints when the argument count is wrong. -/
def usageText : List Nat :=
  strBytes "Error: folder not specified! Usage: encode2mp3 folder_name Supported extentions:"

/-- The diagnostic `main` prints when no supported file is found. -/
def noFilesText : List Nat :=
  strBytes "The directory is not exists or contain any supported file!"

/-- Embeds `main` (src/encode2mp3.cpp lines 359-384).  `args.length` is `argc`;
the directory listing is the external enumeration collaborator's answer;
`headerOf` / `streamBytesOf` give each file's parsed header and stream
size, consumed only by the workers.  `argNum != 2` prints usage plus the
extension set and returns `-1`; an empty filter result returns `-1`;
otherwise the batch runs and `main` returns `0` without inspecting any
worker's outcome. -/
def mainModel (enc : Nat → List Nat) (flushBytes : List Nat)
    (headerOf : List Nat → PcmHeader) (streamBytesOf : List Nat → Nat)
    (args : List (List Nat)) (dirContents : List PathName) : MainOut :=
  if args.length ≠ 2 then ⟨-1, usageText :: extentions, []⟩
  else
    let files := filterFiles dirContents extentions
    if files.isEmpty then ⟨-1, [strBytes "argument:", noFilesText], []⟩
    else
      ⟨0, [strBytes "argument:", strBytes "Found files to encode"],
        (files.map (fun f =>
          (encode2mp3Worker enc flushBytes (headerOf f.name) f.name (streamBytesOf f.name)).events)).flatten⟩

/-!  Concrete instances used by witnesses and counterexamples. -/

/-- A concrete abstract encoder that hands back one byte per call. -/
def encOne : Nat → List Nat := fun _ => [0]

/-- A concrete 16-bit stereo 44100 Hz header whose data chunk declares
4 bytes, i.e. `declaredSampleCount = 1` frame. -/
def hdrStereoTiny : PcmHeader :=
  { chunkID := strBytes "RIFF", chunkSize := 40, format := strBytes "WAVE",
    subchunk1ID := strBytes "fmt ", subchunk1Size := 16,
    audioFormat := 1, numChannels := 2, sampleRate := 44100,
    byteRate := 176400, blockAlign := 4, bitsPerSample := 16,
    subchunk2ID := strBytes "data", subchunk2Size := 4 }

/-- A concrete 24-bit header that is otherwise canonical: uncompressed
PCM, stereo, 44100 Hz, `"data"` tag. -/
def hdr24Bit : PcmHeader :=
  { chunkID := strBytes "RIFF", chunkSize := 36, format := strBytes "WAVE",
    subchunk1ID := strBytes "fmt ", subchunk1Size := 16,
    audioFormat := 1, numChannels := 2, sampleRate := 44100,
    byteRate := 264600, blockAlign := 6, bitsPerSample := 24,
    subchunk2ID := strBytes "data", subchunk2Size := 0 }

/-- A concrete 16-bit stereo header declaring a 400-byte data chunk,
i.e. `declaredSampleCount = 100` frames. -/
def hdrStereo100 : PcmHeader :=
  { chunkID := strBytes "RIFF", chunkSize := 436, format := strBytes "WAVE",
    subchunk1ID := strBytes "fmt ", subchunk1Size := 16,
    audioFormat := 1, numChannels := 2, sampleRate := 44100,
    byteRate := 176400, blockAlign := 4, bitsPerSample := 16,
    subchunk2ID := strBytes "data", subchunk2Size := 400 }

/-- An invalid header failing only the bit-depth test
(`bitsPerSample = 4 < 8`), the claim's `UnsupportedBitDepth` mode. -/
def hdrBits4 : PcmHeader :=
  { chunkID := strBytes "RIFF", chunkSize := 36, format := strBytes "WAVE",
    subchunk1ID := strBytes "fmt ", subchunk1Size := 16,
    audioFormat := 1, numChannels := 2, sampleRate := 44100,
    byteRate := 44100, blockAlign := 1, bitsPerSample := 4,
    subchunk2ID := strBytes "data", subchunk2Size := 0 }

/-- An invalid header failing only the channel-count test
(`numChannels = 0`), a `MalformedHeader` mode. -/
def hdrCh0 : PcmHeader :=
  { chunkID := strBytes "RIFF", chunkSize := 36, format := strBytes "WAVE",
    subchunk1ID := strBytes "fmt ", subchunk1Size := 16,
    audioFormat := 1, numChannels := 0, sampleRate := 44100,
    byteRate := 176400, blockAlign := 4, bitsPerSample := 16,
    subchunk2ID := strBytes "data", subchunk2Size := 0 }


theorem encodeLoopRun_last (enc : Nat → List Nat) (toRead bps ch : Nat)
    (inFile : List Nat) (remaining : Nat) (hlt : remaining < toRead) :
    encodeLoopRun enc toRead bps ch inFile remaining =
      ⟨remaining / bps / ch,
       if (enc (remaining / bps / ch)).length = 0 then [DiagLine.toWriteZero inFile] else [],
       [⟨changeExtention inFile, enc (remaining / bps / ch)⟩]⟩ := by
  have hT : ¬ toRead = 0 := by omega
  have hmin : min toRead remaining = remaining := by omega
  rw [encodeLoopRun]
  simp only [hmin]
  rw [dif_neg hT, dif_pos hlt]

theorem encodeLoopRun_step (enc : Nat → List Nat) (toRead bps ch : Nat)
    (inFile : List Nat) (remaining : Nat) (hT : toRead ≠ 0) (hge : toRead ≤ remaining) :
    encodeLoopRun enc toRead bps ch inFile remaining =
      ⟨toRead / bps / ch + (encodeLoopRun enc toRead bps ch inFile (remaining - toRead)).samples,
       (if (enc (toRead / bps / ch)).length = 0 then [DiagLine.toWriteZero inFile] else []) ++
         (encodeLoopRun enc toRead bps ch inFile (remaining - toRead)).events,
       (⟨changeExtention inFile, enc (toRead / bps / ch)⟩ : WriteEvent) ::
         (encodeLoopRun enc toRead bps ch inFile (remaining - toRead)).writes⟩ := by
  have hmin : min toRead remaining = toRead := by omega
  rw [encodeLoopRun]
  simp only [hmin]
  rw [dif_neg hT, dif_neg (by omega : ¬ toRead < toRead)]

/-- C1 (amended): at normal completion of the streaming loop the cumulative
sample-frame count fed to the encoder equals the number of frames actually
readable from the stream, `remaining / (bitsPerSample/8) / numChannels`;
no clamping to `declaredSampleCount` takes place, so the count exceeds the
declared budget whenever the stream holds more frames than declared. -/
theorem c1_theorem (enc : Nat → List Nat) (toRead bps ch : Nat) (inFile : List Nat)
    (remaining : Nat) (hT : 0 < toRead) (hdvd : bps * ch ∣ toRead) :
    (encodeLoopRun enc toRead bps ch inFile remaining).samples = remaining / bps / ch := by
  have hd0 : 0 < bps * ch := by
    rcases Nat.eq_zero_or_pos (bps * ch) with h0 | h0
    · rw [h0] at hdvd
      exact absurd (Nat.eq_zero_of_zero_dvd hdvd) (by omega)
    · exact h0
  induction remaining using Nat.strong_induction_on with
  | _ remaining ih =>
    by_cases hlt : remaining < toRead
    · rw [encodeLoopRun_last enc toRead bps ch inFile remaining hlt]
    · have hge : toRead ≤ remaining := by omega
      rw [encodeLoopRun_step enc toRead bps ch inFile remaining (by omega) hge]
      simp only [ih (remaining - toRead) (by omega)]
      simp only [Nat.div_div_eq_div_mul]
      obtain ⟨k, hk⟩ := hdvd
      subst hk
      rw [Nat.mul_div_cancel_left k hd0]
      have hm : remaining = bps * ch * k + (remaining - bps * ch * k) := by omega
      conv_rhs => rw [hm]
      rw [Nat.mul_add_div hd0]


theorem worker_valid (enc : Nat → List Nat) (flushBytes : List Nat)
    (hdr : PcmHeader) (inFile : List Nat) (streamBytes : Nat) (hv : isValid hdr = true) :
    encode2mp3Worker enc flushBytes hdr inFile streamBytes =
      ⟨(encodeLoopRun enc (toReadFor (decide (hdr.numChannels = 1))) (hdr.bitsPerSample / 8)
          hdr.numChannels inFile streamBytes).samples,
       DiagLine.encodingStart inFile (changeExtention inFile) ::
         (if hdr.bitsPerSample < 16 then [DiagLine.lowQuality] else []) ++
         (encodeLoopRun enc (toReadFor (decide (hdr.numChannels = 1))) (hdr.bitsPerSample / 8)
           hdr.numChannels inFile streamBytes).events ++
         [DiagLine.finished (changeExtention inFile)],
       (encodeLoopRun enc (toReadFor (decide (hdr.numChannels = 1))) (hdr.bitsPerSample / 8)
         hdr.numChannels inFile streamBytes).writes ++
         [⟨changeExtention inFile, flushBytes⟩]⟩ := by
  rw [encode2mp3Worker]
  rw [if_neg (by simp [hv])]

/-- C1 counterexample: a header declaring `declaredSampleCount = 1` frame
over a stream holding 2 frames (8 bytes of 16-bit stereo, at least the
declared count) makes the worker feed 2 frames to the encoder: cumulative
samples exceed the declared budget and differ from it at termination. -/
theorem c1_counterexample :
    declaredSampleCount hdrStereoTiny = 1 ∧
    8 / (hdrStereoTiny.bitsPerSample / 8) / hdrStereoTiny.numChannels = 2 ∧
    (encode2mp3Worker encOne [1] hdrStereoTiny (strBytes "t.wav") 8).samples = 2 := by
  refine ⟨by decide, by decide, ?_⟩
  rw [worker_valid encOne [1] hdrStereoTiny (strBytes "t.wav") 8 (by decide)]
  rw [encodeLoopRun_last encOne _ _ _ _ 8 (by decide)]
  decide

/-- C1 witness: the amended theorem applied at 16-bit stereo parameters
(`toRead = 32768` bytes) and a 70000-byte stream: 17500 frames encoded. -/
theorem c1_witness :
    0 < toReadFor false ∧ (2 * 2) ∣ toReadFor false ∧
    (encodeLoopRun encOne (toReadFor false) 2 2 (strBytes "t.wav") 70000).samples = 17500 := by
  refine ⟨by decide, by decide, ?_⟩
  rw [c1_theorem encOne (toReadFor false) 2 2 (strBytes "t.wav") 70000 (by decide) (by decide)]

/-- C2 (amended): header validation succeeds exactly when the audio format
code is 1 (uncompressed PCM), bits-per-sample is at least 8, channel count
is positive and sample rate is positive.  The data-subchunk tag is never
examined and bit depths above 16 (such as 24) are accepted. -/
theorem c2_theorem (h : PcmHeader) :
    isValid h = true ↔
      (h.audioFormat = 1 ∧ 8 ≤ h.bitsPerSample ∧ 0 < h.numChannels ∧ 0 < h.sampleRate) := by
  simp only [isValid, Bool.and_eq_true, decide_eq_true_eq]
  constructor
  · rintro ⟨⟨⟨⟨a, b⟩, c⟩, d⟩, e⟩
    exact ⟨a, b, c, d⟩
  · rintro ⟨a, b, c, d⟩
    exact ⟨⟨⟨⟨a, b⟩, c⟩, d⟩, by omega⟩

/-- C2 counterexample: a canonical 24-bit header - uncompressed PCM,
stereo, 44100 Hz, `"data"` tag - passes `isValid`, though the claim says
validation rejects every such header. -/
theorem c2_counterexample :
    hdr24Bit.audioFormat = 1 ∧ 0 < hdr24Bit.numChannels ∧ 0 < hdr24Bit.sampleRate ∧
    hdr24Bit.bitsPerSample = 24 ∧ hdr24Bit.subchunk2ID = strBytes "data" ∧
    isValid hdr24Bit = true := by decide

/-- C6 (amended): for every header that fails validation the worker emits
exactly one diagnostic line, and that line carries the file name; only two
failure modes are distinguishable - unsupported audio format (when the
format code is not 1) versus a broken-header line for everything else. -/
theorem c6_theorem (enc : Nat → List Nat) (flushBytes : List Nat) (hdr : PcmHeader)
    (inFile : List Nat) (streamBytes : Nat) (hInv : isValid hdr = false) :
    (encode2mp3Worker enc flushBytes hdr inFile streamBytes).events =
      [if hdr.audioFormat ≠ 1 then DiagLine.unsupportedFormat inFile
       else DiagLine.brokenHeader inFile] := by
  rw [encode2mp3Worker]
  rw [if_pos hInv]
  split
  · rfl
  · rfl

/-- C6 witness: the amended theorem applied to a concrete invalid header
(zero channels): exactly one broken-header line naming the file. -/
theorem c6_witness :
    isValid hdrCh0 = false ∧
    (encode2mp3Worker encOne [1] hdrCh0 (strBytes "f.wav") 0).events =
      [DiagLine.brokenHeader (strBytes "f.wav")] := by
  refine ⟨by decide, ?_⟩
  rw [c6_theorem encOne [1] hdrCh0 (strBytes "f.wav") 0 (by decide)]
  decide

/-- C6 counterexample: an unsupported-bit-depth header (4-bit) and a
malformed header (zero channels, valid 16-bit depth) produce identical
diagnostics, so the claim's three failure modes are not pairwise
distinguishable in the emitted line. -/
theorem c6_counterexample :
    isValid hdrBits4 = false ∧ isValid hdrCh0 = false ∧
    hdrBits4.audioFormat = 1 ∧ hdrBits4.bitsPerSample = 4 ∧
    hdrCh0.audioFormat = 1 ∧ 16 ≤ hdrCh0.bitsPerSample ∧ hdrCh0.numChannels = 0 ∧
    (encode2mp3Worker encOne [1] hdrBits4 (strBytes "f.wav") 0).events =
      (encode2mp3Worker encOne [1] hdrCh0 (strBytes "f.wav") 0).events := by decide

/-- C4 (amended): for every valid header and every stream length -
truncated or not - the streaming loop terminates and the worker's last
diagnostic is the finished line for the derived output file. -/
theorem c4_theorem (enc : Nat → List Nat) (flushBytes : List Nat) (hdr : PcmHeader)
    (inFile : List Nat) (streamBytes : Nat) (hv : isValid hdr = true) :
    (encode2mp3Worker enc flushBytes hdr inFile streamBytes).events.getLast? =
      some (DiagLine.finished (changeExtention inFile)) := by
  rw [worker_valid enc flushBytes hdr inFile streamBytes hv]
  dsimp only
  exact List.getLast?_concat _

/-- C4 witness: the amended theorem applied to a valid 16-bit stereo
header over a 4-byte (truncated) stream. -/
theorem c4_witness :
    isValid hdrStereo100 = true ∧
    (encode2mp3Worker encOne [1] hdrStereo100 (strBytes "t.wav") 4).events.getLast? =
      some (DiagLine.finished (strBytes "t.mp3")) := by
  refine ⟨by decide, ?_⟩
  rw [c4_theorem encOne [1] hdrStereo100 (strBytes "t.wav") 4 (by decide)]
  decide

/-- C4 counterexample: a header declaring 100 frames, read over a stream
truncated to 1 frame versus the full 400-byte stream, produces identical
diagnostics: the declared-versus-encoded mismatch is never surfaced. -/
theorem c4_counterexample :
    declaredSampleCount hdrStereo100 = 100 ∧
    4 / (hdrStereo100.bitsPerSample / 8) / hdrStereo100.numChannels = 1 ∧
    (encode2mp3Worker encOne [1] hdrStereo100 (strBytes "t.wav") 4).events =
      (encode2mp3Worker encOne [1] hdrStereo100 (strBytes "t.wav") 400).events := by
  refine ⟨by decide, by decide, ?_⟩
  rw [worker_valid encOne [1] hdrStereo100 (strBytes "t.wav") 4 (by decide)]
  rw [worker_valid encOne [1] hdrStereo100 (strBytes "t.wav") 400 (by decide)]
  rw [encodeLoopRun_last encOne _ _ _ _ 4 (by decide)]
  rw [encodeLoopRun_last encOne _ _ _ _ 400 (by decide)]
  decide

theorem popTillDot_append (l r : List Nat) (hl : ∀ c ∈ l, c ≠ 46) :
    popTillDot (l ++ 46 :: r) = 46 :: r := by
  induction l with
  | nil => simp [popTillDot]
  | cons c cs ih =>
    have hc : c ≠ 46 := hl c (by simp)
    simp only [List.cons_append, popTillDot, if_neg hc]
    exact ih (fun x hx => hl x (by simp [hx]))

/-- C7: for every input path containing a dot, the derived output path
keeps everything up to and including the final dot unchanged and replaces
the extension after it with `mp3`. -/
theorem c7_theorem (pre suf fileName : List Nat)
    (hsplit : fileName = pre ++ 46 :: suf) (hnd : 46 ∉ suf) :
    changeExtention fileName = pre ++ 46 :: strBytes "mp3" := by
  subst hsplit
  unfold changeExtention
  rw [List.reverse_append, List.reverse_cons, List.append_assoc, List.singleton_append]
  rw [popTillDot_append suf.reverse (pre.reverse) ?hall]
  case hall =>
    intro c hc h46
    exact hnd (by simpa [h46] using List.mem_reverse.mp hc)
  simp

/-- C7 witness: `changeExtention "track.07.WAV" = "track.07.mp3"`. -/
theorem c7_witness :
    changeExtention (strBytes "track.07.WAV") = strBytes "track.07.mp3" := by
  have h := c7_theorem (strBytes "track.07") (strBytes "WAV") (strBytes "track.07.WAV")
    (by decide) (by decide)
  rw [h]
  decide

theorem checkPathGo_iff (s : List Nat) :
    checkPathGo s = true ↔ ∃ c ∈ s, c = 47 ∨ c = 92 := by
  induction s with
  | nil => simp [checkPathGo]
  | cons c cs ih =>
    by_cases hc : c = 47 ∨ c = 92
    · simp [checkPathGo, hc]
    · simp only [checkPathGo, if_neg hc, ih, List.mem_cons]
      constructor
      · rintro ⟨x, hx, hor⟩
        exact ⟨x, Or.inr hx, hor⟩
      · rintro ⟨x, hx | hx, hor⟩
        · exact absurd (hx ▸ hor) hc
        · exact ⟨x, hx, hor⟩

/-- C10: `checkPath` returns true exactly when the argument is a non-null
string containing at least one `/` (47) or `\\` (92) byte. -/
theorem c10_theorem (p : Option (List Nat)) :
    checkPath p = true ↔ ∃ s, p = some s ∧ ∃ c ∈ s, c = 47 ∨ c = 92 := by
  cases p with
  | none => simp [checkPath]
  | some s => simp [checkPath, checkPathGo_iff]

/-- C5: the exit code of `main` is nonzero exactly when the argument
count differs from two (program name plus one directory) or the filtered
file list is empty; with a wrong argument count the usage text and the
recognized extension set are printed; otherwise `main` returns 0 no matter
what any worker does. -/
theorem c5_theorem (enc : Nat → List Nat) (flushBytes : List Nat)
    (headerOf : List Nat → PcmHeader) (streamBytesOf : List Nat → Nat)
    (args : List (List Nat)) (dirContents : List PathName) :
    ((mainModel enc flushBytes headerOf streamBytesOf args dirContents).exitCode ≠ 0 ↔
      (args.length ≠ 2 ∨ filterFiles dirContents extentions = []))
    ∧ (args.length ≠ 2 →
        (mainModel enc flushBytes headerOf streamBytesOf args dirContents).output =
          usageText :: extentions) := by
  unfold mainModel
  by_cases h2 : args.length = 2
  · rw [if_neg (by omega)]
    by_cases hE : filterFiles dirContents extentions = []
    · rw [if_pos (by simp [hE])]
      simp [h2, hE]
    · rw [if_neg (by simp [List.isEmpty_iff, hE])]
      simp [h2, hE]
  · rw [if_pos h2]
    simp [h2]

/-- C5 witness: `main` with a single argument (argc = 1): nonzero exit
code and the usage text plus extension set printed. -/
theorem c5_witness :
    (mainModel encOne [1] (fun _ => hdrStereoTiny) (fun _ => 0)
      [strBytes "encode2mp3"] []).exitCode ≠ 0 ∧
    (mainModel encOne [1] (fun _ => hdrStereoTiny) (fun _ => 0)
      [strBytes "encode2mp3"] []).output = usageText :: extentions :=
  ⟨((c5_theorem encOne [1] (fun _ => hdrStereoTiny) (fun _ => 0)
      [strBytes "encode2mp3"] []).1).mpr (Or.inl (by decide)),
   (c5_theorem encOne [1] (fun _ => hdrStereoTiny) (fun _ => 0)
      [strBytes "encode2mp3"] []).2 (by decide)⟩

theorem monoLoopCalls_props (n : Nat) :
    ∀ (stream : List Int), stream.length ≤ n →
      ((monoLoopCalls stream).map EncodeCall.leftChannel).flatten = stream ∧
      ∀ c ∈ monoLoopCalls stream, c.rightChannel = dummyPcmRightChannel ∧
        c.nsamples = c.leftChannel.length ∧ c.leftChannel.length ≤ monoChunkSamples := by
  induction n with
  | zero =>
    intro stream hlen
    have hnil : stream = [] := List.length_eq_zero.mp (by omega)
    subst hnil
    rw [monoLoopCalls]
    rw [dif_pos (by decide)]
    refine ⟨by simp, ?_⟩
    intro c hc
    simp only [List.mem_singleton] at hc
    subst hc
    simp
  | succ n ih =>
    intro stream hlen
    rw [monoLoopCalls]
    by_cases h : stream.length < monoChunkSamples
    · rw [dif_pos h]
      refine ⟨by simp [List.take_of_length_le (by omega : stream.length ≤ monoChunkSamples)], ?_⟩
      intro c hc
      simp only [List.mem_singleton] at hc
      subst hc
      refine ⟨rfl, rfl, ?_⟩
      simp [List.length_take]
    · rw [dif_neg h]
      have hrec := ih (stream.drop monoChunkSamples)
        (by
          have hmcs : 0 < monoChunkSamples := by decide
          simp only [List.length_drop]
          omega)
      refine ⟨?_, ?_⟩
      · simp only [List.map_cons, List.flatten_cons, hrec.1]
        exact List.take_append_drop _ _
      · intro c hc
        simp only [List.mem_cons] at hc
        rcases hc with hc | hc
        · subst hc
          refine ⟨rfl, rfl, by simp [List.length_take]⟩
        · exact hrec.2 c hc

/-- C8: in mono mode each iteration requests half the stereo read size;
every encoder call passes a zero-filled right-channel buffer of
`sizeof(pcmBuffer)` elements that is a fixed constant independent of the
left channel, the sample count passed equals the fresh left-channel data
length, and the left-channel chunks concatenate back to exactly the input
stream - the mono duplication step leaves the real channel data intact. -/
theorem c8_theorem (stream : List Int) :
    toReadFor true = toReadFor false / 2 ∧
    ((monoLoopCalls stream).map EncodeCall.leftChannel).flatten = stream ∧
    ∀ c ∈ monoLoopCalls stream,
      c.rightChannel = List.replicate pcmBufferBytes 0 ∧
      c.nsamples = c.leftChannel.length ∧ c.leftChannel.length ≤ monoChunkSamples := by
  have h := monoLoopCalls_props stream.length stream (le_refl _)
  exact ⟨by decide, h.1, h.2⟩

theorem toLowerB_46 : toLowerB 46 = 46 := by decide

theorem map_toLowerB_self (l : List Nat) (h : ∀ c ∈ l, toLowerB c = c) :
    l.map toLowerB = l := by
  induction l with
  | nil => rfl
  | cons c cs ih =>
    simp only [List.map_cons, h c (by simp), List.cons.injEq, true_and]
    exact ih (fun x hx => h x (by simp [hx]))

theorem takeWhile_append_dot (l r : List Nat) (hl : ∀ c ∈ l, c ≠ 46) :
    (l ++ 46 :: r).takeWhile (fun c => c ≠ 46) = l := by
  induction l with
  | nil => simp [List.takeWhile_cons]
  | cons c cs ih =>
    simp only [List.cons_append, List.takeWhile_cons, decide_eq_true_eq]
    rw [if_pos (hl c (by simp))]
    simp only [List.cons.injEq, true_and]
    exact ih (fun x hx => hl x (by simp [hx]))

theorem firstDotSplit (l : List Nat) (hm : 46 ∈ l) :
    ∃ t u, l = t ++ 46 :: u ∧ t = l.takeWhile (fun c => c ≠ 46) ∧ ∀ c ∈ t, c ≠ 46 := by
  induction l with
  | nil => simp at hm
  | cons c cs ih =>
    by_cases hc : c = 46
    · subst hc
      exact ⟨[], cs, rfl, by simp [List.takeWhile_cons], by simp⟩
    · have hmc : 46 ∈ cs := by
        rcases List.mem_cons.mp hm with h | h
        · exact absurd h.symm hc
        · exact h
      obtain ⟨t, u, h1, h2, h3⟩ := ih hmc
      refine ⟨c :: t, u, by simp [h1], ?_, ?_⟩
      · simp only [List.takeWhile_cons, decide_eq_true_eq, if_pos hc]
        simp [h2]
      · intro x hx
        rcases List.mem_cons.mp hx with h | h
        · exact h ▸ hc
        · exact h3 x h

theorem matchesExt_true_iff (name ext : List Nat) :
    matchesExt name ext = true ↔
      ext.length + 1 ≤ name.length ∧
      name.reverse.getD ext.length 0 = 46 ∧
      ((name.reverse.take ext.length).map toLowerB).reverse = ext := by
  unfold matchesExt
  split_ifs with h1 h2
  · simp only [Bool.false_eq_true, false_iff]
    rintro ⟨ha, -, -⟩
    omega
  · simp only [Bool.false_eq_true, false_iff]
    rintro ⟨-, hb, -⟩
    exact h2 hb
  · simp only [decide_eq_true_eq]
    constructor
    · intro h3
      exact ⟨by omega, not_ne_iff.mp h2, h3⟩
    · rintro ⟨-, -, h3⟩
      exact h3

theorem specMatches_true_iff (name ext : List Nat) (hlower : ∀ c ∈ ext, toLowerB c = c) :
    specMatches name ext = true ↔
      46 ∈ name ∧ ((name.reverse.takeWhile (fun c => c ≠ 46)).reverse).map toLowerB = ext := by
  by_cases hdot : 46 ∈ name
  · simp only [specMatches, suffixAfterLastDot, hdot, if_true, decide_eq_true_eq,
      map_toLowerB_self ext hlower, true_and]
  · simp [specMatches, suffixAfterLastDot, hdot]

theorem matchesExt_eq_specMatches (name ext : List Nat)
    (hlower : ∀ c ∈ ext, toLowerB c = c) (hnd : 46 ∉ ext) :
    matchesExt name ext = specMatches name ext := by
  have key : matchesExt name ext = true ↔ specMatches name ext = true := by
    rw [matchesExt_true_iff, specMatches_true_iff name ext hlower]
    constructor
    · rintro ⟨hlen, hdotAt, hmap⟩
      have hklt : ext.length < name.reverse.length := by simp; omega
      have htake : (name.reverse.take ext.length).map toLowerB = ext.reverse := by
        have := congrArg List.reverse hmap
        simpa using this
      have hnodot : ∀ c ∈ name.reverse.take ext.length, c ≠ 46 := by
        intro c hc hc46
        subst hc46
        have : toLowerB 46 ∈ ext.reverse := htake ▸ List.mem_map_of_mem toLowerB hc
        rw [toLowerB_46] at this
        exact hnd (List.mem_reverse.mp this)
      have hdecomp : name.reverse =
          name.reverse.take ext.length ++ 46 :: name.reverse.drop (ext.length + 1) := by
        conv_lhs => rw [← List.take_append_drop ext.length name.reverse]
        congr 1
        rw [List.drop_eq_getElem_cons hklt]
        congr 1
        rw [← List.getD_eq_getElem name.reverse 0 hklt]
        exact hdotAt
      constructor
      · rw [← List.mem_reverse, hdecomp]
        simp
      · rw [hdecomp, takeWhile_append_dot _ _ hnodot]
        rw [List.map_reverse, htake]
        simp
    · rintro ⟨hdot, hmap⟩
      have hdotr : 46 ∈ name.reverse := List.mem_reverse.mpr hdot
      obtain ⟨t, u, hsplit, htw, hnod⟩ := firstDotSplit name.reverse hdotr
      rw [← htw] at hmap
      have htmap : t.map toLowerB = ext.reverse := by
        have := congrArg List.reverse hmap
        simpa [List.map_reverse] using this
      have htlen : t.length = ext.length := by
        have := congrArg List.length htmap
        simpa using this
      have hnamelen : name.length = t.length + (u.length + 1) := by
        have := congrArg List.length hsplit
        simpa using this
      refine ⟨by omega, ?_, ?_⟩
      · rw [hsplit, ← htlen]
        rw [List.getD_eq_getElem _ 0 (by simp only [List.length_append, List.length_cons]; omega)]
        rw [List.getElem_append_right (by omega)]
        simp
      · rw [hsplit, ← htlen, List.take_left, htmap]
        simp
  cases hme : matchesExt name ext with
  | true => exact (key.mp hme).symm
  | false =>
    cases hsp : specMatches name ext with
    | true => exact absurd (key.mpr hsp) (by simp [hme])
    | false => rfl

theorem any_congr_mem (exts : List (List Nat)) (f g : List Nat → Bool)
    (h : ∀ e ∈ exts, f e = g e) : exts.any f = exts.any g := by
  induction exts with
  | nil => rfl
  | cons e es ih =>
    simp only [List.any_cons, h e (by simp)]
    rw [ih (fun x hx => h x (by simp [hx]))]

/-- C3 (amended): when every configured extension is lowercase ASCII and
contains no dot - true of the program's fixed set - the filter returns
exactly the entries of kind `File` whose suffix after the final dot equals
some extension case-insensitively, preserving input order. -/
theorem c3_theorem (ps : List PathName) (exts : List (List Nat))
    (hlower : ∀ e ∈ exts, ∀ c ∈ e, toLowerB c = c) (hnd : ∀ e ∈ exts, 46 ∉ e) :
    filterFiles ps exts =
      ps.filter (fun p => decide (p.type = PathType.File) &&
        exts.any (fun e => specMatches p.name e)) := by
  induction ps with
  | nil => rfl
  | cons p ps ih =>
    have hany : exts.any (fun e => matchesExt p.name e) =
        exts.any (fun e => specMatches p.name e) :=
      any_congr_mem exts _ _ (fun e he =>
        matchesExt_eq_specMatches p.name e (hlower e he) (hnd e he))
    rw [filterFiles]
    by_cases htype : p.type = PathType.File
    · rw [if_neg (by simp [htype])]
      rw [List.filter_cons]
      by_cases hmatch : exts.any (fun e => specMatches p.name e) = true
      · rw [if_pos (by rw [hany]; exact hmatch)]
        rw [if_pos (by simp [htype, hmatch])]
        rw [ih]
      · rw [if_neg (by rw [hany]; simp [hmatch])]
        rw [if_neg (by simp [htype]; simp at hmatch; exact hmatch)]
        exact ih
    · rw [if_pos htype]
      rw [List.filter_cons]
      rw [if_neg (by simp [htype])]
      exact ih

/-- C3 witness: the amended theorem applied to the spec's example:
filtering `{a.WAV, b.wav, c.mp3, d.pcm, e}` with `{wav, wave, pcm}` keeps
exactly `{a.WAV, b.wav, d.pcm}` in order. -/
theorem c3_witness :
    (∀ e ∈ extentions, ∀ c ∈ e, toLowerB c = c) ∧ (∀ e ∈ extentions, 46 ∉ e) ∧
    filterFiles
      [⟨PathType.File, strBytes "a.WAV"⟩, ⟨PathType.File, strBytes "b.wav"⟩,
       ⟨PathType.File, strBytes "c.mp3"⟩, ⟨PathType.File, strBytes "d.pcm"⟩,
       ⟨PathType.File, strBytes "e"⟩] extentions =
      [⟨PathType.File, strBytes "a.WAV"⟩, ⟨PathType.File, strBytes "b.wav"⟩,
       ⟨PathType.File, strBytes "d.pcm"⟩] := by
  refine ⟨by decide, by decide, ?_⟩
  rw [c3_theorem _ extentions (by decide) (by decide)]
  decide

/-- C3 counterexample: with the configured extension `WAV` (uppercase),
the file `a.wav` satisfies the claim's case-insensitive membership, yet
`filterFiles` returns the empty list - the claim fails for arbitrary
extension sets because the code lowercases only the file name. -/
theorem c3_counterexample :
    filterFiles [⟨PathType.File, strBytes "a.wav"⟩] [strBytes "WAV"] = [] ∧
    ([⟨PathType.File, strBytes "a.wav"⟩] : List PathName).filter
      (fun p => decide (p.type = PathType.File) &&
        [strBytes "WAV"].any (fun e => specMatches p.name e)) =
      ([⟨PathType.File, strBytes "a.wav"⟩] : List PathName) := by decide

theorem applyWrites_apply (ws : List WriteEvent) :
    ∀ (fs : List Nat → List Nat) (p : List Nat),
      applyWrites fs ws p =
        fs p ++ ((ws.filter (fun w => w.path = p)).map WriteEvent.bytes).flatten := by
  induction ws with
  | nil => intro fs p; simp [applyWrites]
  | cons w ws ih =>
    intro fs p
    rw [applyWrites, List.foldl_cons]
    rw [show List.foldl applyWrite (applyWrite fs w) ws = applyWrites (applyWrite fs w) ws from rfl]
    rw [ih]
    rw [List.filter_cons]
    by_cases hp : w.path = p
    · rw [if_pos (by simp [hp])]
      simp only [applyWrite, if_pos hp.symm, List.map_cons, List.flatten_cons, List.append_assoc]
    · rw [if_neg (by simp [hp])]
      simp only [applyWrite, if_neg (Ne.symm hp)]

theorem filter_flatten_map (q : WriteEvent → Bool) (L : List (List WriteEvent)) :
    L.flatten.filter q = (L.map (fun l => l.filter q)).flatten := by
  induction L with
  | nil => rfl
  | cons l L ih => simp [List.filter_append, ih]

theorem lt_length_of_getD_ne_nil (queues : List (List WriteEvent)) (i : Nat)
    (h : queues.getD i [] ≠ []) : i < queues.length := by
  by_contra hge
  exact h (List.getD_eq_default _ _ (by omega))

theorem set_getD_self (l : List (List WriteEvent)) (i : Nat) (x : List WriteEvent)
    (hi : i < l.length) (hx : l.getD i [] = x) : l.set i x = l := by
  apply List.ext_getElem (by simp)
  intro j hj hj2
  by_cases hij : i = j
  · subst hij
    rw [List.getElem_set_self]
    rw [← hx, List.getD_eq_getElem _ _ hi]
  · rw [List.getElem_set_ne hij]

theorem flatten_eq_getD_of_others_nil (L : List (List WriteEvent)) :
    ∀ (i : Nat), (∀ j, j ≠ i → L.getD j [] = []) → L.flatten = L.getD i [] := by
  induction L with
  | nil => intro i _; simp
  | cons a L ih =>
    intro i hothers
    cases i with
    | zero =>
      have hLnil : L.flatten = [] := by
        rw [List.flatten_eq_nil_iff]
        intro l hl
        obtain ⟨k, hk, hkl⟩ := List.getElem_of_mem hl
        have := hothers (k + 1) (by omega)
        simp only [List.getD_cons_succ] at this
        rw [← hkl, ← this, List.getD_eq_getElem _ _ hk]
      simp [hLnil]
    | succ n =>
      have ha : a = [] := hothers 0 (by omega)
      subst ha
      simp only [List.flatten_cons, List.nil_append, List.getD_cons_succ]
      exact ih n (fun j hj => by
        have := hothers (j + 1) (by omega)
        simpa using this)

theorem runSchedule_filter (p : List Nat) :
    ∀ (sched : List Nat) (queues : List (List WriteEvent)),
      (∀ i j, i ≠ j → ∀ w ∈ queues.getD i [], ∀ w' ∈ queues.getD j [], w.path ≠ w'.path) →
      (runSchedule sched queues).filter (fun w => w.path = p) =
        queues.flatten.filter (fun w => w.path = p) := by
  intro sched
  induction sched with
  | nil => intro queues _; rfl
  | cons i sched ih =>
    intro queues hdisj
    cases hq : queues.getD i [] with
    | nil =>
      simp only [runSchedule, hq]
      exact ih queues hdisj
    | cons w rest =>
      have hi : i < queues.length :=
        lt_length_of_getD_ne_nil queues i (by rw [hq]; simp)
      have hmem : ∀ k x, x ∈ (queues.set i rest).getD k [] → x ∈ queues.getD k [] := by
        intro k x hx
        by_cases hk : k < queues.length
        · by_cases hki : i = k
          · subst hki
            rw [List.getD_eq_getElem _ _ (by simpa using hk), List.getElem_set_self] at hx
            rw [hq]
            exact List.mem_cons_of_mem _ hx
          · rw [List.getD_eq_getElem _ _ (by simpa using hk), List.getElem_set_ne hki] at hx
            rw [List.getD_eq_getElem _ _ hk]
            exact hx
        · rw [List.getD_eq_default _ _ (by simp only [List.length_set]; omega)] at hx
          simp at hx
      have hdisj' : ∀ a b, a ≠ b → ∀ w1 ∈ (queues.set i rest).getD a [],
          ∀ w2 ∈ (queues.set i rest).getD b [], w1.path ≠ w2.path := by
        intro a b hab w1 h1 w2 h2
        exact hdisj a b hab w1 (hmem a w1 h1) w2 (hmem b w2 h2)
      have hwq : w ∈ queues.getD i [] := by rw [hq]; simp
      simp only [runSchedule, hq]
      rw [List.filter_cons, ih (queues.set i rest) hdisj']
      have hgetI : queues[i] = w :: rest := by
        rw [← List.getD_eq_getElem _ ([] : List WriteEvent) hi]
        exact hq
      by_cases hwp : w.path = p
      · rw [if_pos (by simp [hwp])]
        rw [filter_flatten_map, filter_flatten_map, List.map_set]
        have hothers : ∀ j, j ≠ i →
            (queues.map (fun l => l.filter (fun w => w.path = p))).getD j [] = [] := by
          intro j hj
          by_cases hjlen : j < queues.length
          · rw [List.getD_eq_getElem _ _ (by simpa using hjlen), List.getElem_map]
            rw [List.filter_eq_nil_iff]
            intro x hx
            have hxg : x ∈ queues.getD j [] := by
              rw [List.getD_eq_getElem _ _ hjlen]
              exact hx
            have hne := hdisj j i hj x hxg w hwq
            rw [hwp] at hne
            simp [hne]
          · rw [List.getD_eq_default _ _ (by simp only [List.length_map]; omega)]
        have hothers' : ∀ j, j ≠ i →
            ((queues.map (fun l => l.filter (fun w => w.path = p))).set i
              (rest.filter (fun w => w.path = p))).getD j [] = [] := by
          intro j hj
          by_cases hjlen : j < queues.length
          · rw [List.getD_eq_getElem _ _ (by simp only [List.length_set, List.length_map]; omega),
              List.getElem_set_ne (Ne.symm hj)]
            have := hothers j hj
            rw [List.getD_eq_getElem _ _ (by simpa using hjlen)] at this
            exact this
          · rw [List.getD_eq_default _ _ (by simp only [List.length_set, List.length_map]; omega)]
        rw [flatten_eq_getD_of_others_nil _ i hothers,
            flatten_eq_getD_of_others_nil _ i hothers']
        rw [List.getD_eq_getElem _ _ (by simp only [List.length_set, List.length_map]; omega),
            List.getElem_set_self]
        rw [List.getD_eq_getElem _ _ (by simpa using hi), List.getElem_map, hgetI]
        rw [List.filter_cons, if_pos (by simp [hwp])]
      · rw [if_neg (by simp [hwp])]
        rw [filter_flatten_map, filter_flatten_map, List.map_set]
        rw [set_getD_self _ i _ (by simpa using hi) ?hval]
        case hval =>
          rw [List.getD_eq_getElem _ _ (by simpa using hi), List.getElem_map, hgetI]
          rw [List.filter_cons, if_neg (by simp [hwp])]

theorem encodeLoopRun_writes_path (enc : Nat → List Nat) (toRead bps ch : Nat)
    (inFile : List Nat) (remaining : Nat) :
    ∀ w ∈ (encodeLoopRun enc toRead bps ch inFile remaining).writes,
      w.path = changeExtention inFile := by
  induction remaining using Nat.strong_induction_on with
  | _ remaining ih =>
    intro w hw
    by_cases hT : toRead = 0
    · rw [encodeLoopRun, dif_pos hT] at hw
      simp at hw
    · by_cases hlt : remaining < toRead
      · rw [encodeLoopRun_last _ _ _ _ _ _ hlt] at hw
        simp only [List.mem_singleton] at hw
        subst hw
        rfl
      · rw [encodeLoopRun_step _ _ _ _ _ _ hT (by omega)] at hw
        dsimp only at hw
        rcases List.mem_cons.mp hw with h | h
        · subst h
          rfl
        · exact ih (remaining - toRead) (by omega) w h

theorem worker_writes_path (enc : Nat → List Nat) (flush : List Nat) (hdr : PcmHeader)
    (inFile : List Nat) (n : Nat) :
    ∀ w ∈ (encode2mp3Worker enc flush hdr inFile n).writes,
      w.path = changeExtention inFile := by
  intro w hw
  by_cases hv : isValid hdr = true
  · rw [worker_valid _ _ _ _ _ hv] at hw
    dsimp only at hw
    rcases List.mem_append.mp hw with h | h
    · exact encodeLoopRun_writes_path _ _ _ _ _ _ w h
    · simp only [List.mem_singleton] at h
      subst h
      rfl
  · have hf : isValid hdr = false := by
      cases hb : isValid hdr
      · rfl
      · exact absurd hb hv
    rw [encode2mp3Worker, if_pos hf] at hw
    split at hw <;> simp at hw

/-- C9: for input files whose derived output paths are pairwise distinct,
every schedule - every interleaving of the per-worker write sequences
followed by the join barrier - leaves the file system in exactly the state
of running the workers one at a time in order: parallel execution never
alters any single file's output bytes. -/
theorem c9_theorem (enc : Nat → List Nat) (flush : List Nat)
    (inputs : List (List Nat × PcmHeader × Nat))
    (hdist : (inputs.map (fun t => changeExtention t.1)).Pairwise Ne) :
    ∀ (sched : List Nat) (fs : List Nat → List Nat),
      applyWrites fs (runSchedule sched (workerQueues enc flush inputs)) =
        applyWrites fs (workerQueues enc flush inputs).flatten := by
  have hlen : (workerQueues enc flush inputs).length = inputs.length := by
    simp [workerQueues]
  have hdisj : ∀ i j, i ≠ j → ∀ w ∈ (workerQueues enc flush inputs).getD i [],
      ∀ w' ∈ (workerQueues enc flush inputs).getD j [], w.path ≠ w'.path := by
    intro i j hij w hw w' hw'
    by_cases hilen : i < inputs.length
    · by_cases hjlen : j < inputs.length
      · rw [List.getD_eq_getElem _ _ (by omega)] at hw
        rw [List.getD_eq_getElem _ _ (by omega)] at hw'
        simp only [workerQueues, List.getElem_map] at hw hw'
        have hpw := worker_writes_path enc flush _ _ _ w hw
        have hpw' := worker_writes_path enc flush _ _ _ w' hw'
        rw [hpw, hpw']
        have hPE := List.pairwise_iff_getElem.mp hdist
        rcases Nat.lt_or_ge i j with hij2 | hij2
        · have := hPE i j (by simpa using hilen) (by simpa using hjlen) hij2
          simpa using this
        · have hji : j < i := by omega
          have := hPE j i (by simpa using hjlen) (by simpa using hilen) hji
          simp only [List.getElem_map] at this
          exact Ne.symm this
      · rw [List.getD_eq_default _ _ (by omega)] at hw'
        simp at hw'
    · rw [List.getD_eq_default _ _ (by omega)] at hw
      simp at hw
  intro sched fs
  funext p
  rw [applyWrites_apply, applyWrites_apply]
  rw [runSchedule_filter p sched (workerQueues enc flush inputs) hdisj]

/-- C9 witness: the theorem applied to two concrete valid inputs with
distinct output paths and the concrete schedule `[0, 1, 0, 1]`. -/
theorem c9_witness :
    applyWrites (fun _ => []) (runSchedule [0, 1, 0, 1]
      (workerQueues encOne [1]
        [(strBytes "a.wav", hdrStereoTiny, 8), (strBytes "b.wav", hdrStereoTiny, 8)])) =
    applyWrites (fun _ => []) ((workerQueues encOne [1]
        [(strBytes "a.wav", hdrStereoTiny, 8), (strBytes "b.wav", hdrStereoTiny, 8)]).flatten) :=
  c9_theorem encOne [1]
    [(strBytes "a.wav", hdrStereoTiny, 8), (strBytes "b.wav", hdrStereoTiny, 8)]
    (by decide) [0, 1, 0, 1] (fun _ => [])

end Encode2Mp3
